import Mathlib

/-!
Verification of the publication reconciler in `scripts/update_pubs.py`.

The reconciler's pure logic (classification, manual-precedence filtering,
per-category duplicate merge, identifier generation, output ordering) is
embedded as executable Lean definitions; string processing is done over
`List Char` so every definition reduces in the kernel.  Python's
`datetime.date` values produced by `parse_date` are encoded as the natural
number `y * 10000 + m * 100 + d`; since the constructor enforces
`1 ≤ m ≤ 12 ≤ 99` and `1 ≤ d ≤ 31 ≤ 99`, comparison and equality of the
encodings agree with Python's lexicographic date ordering, and `date.min`
(`date(1, 1, 1)`) is encoded as `10101`.
-/

namespace UpdatePubs

/-- The whitespace characters recognised by Python's `str.strip`, `str.split()`
and `int()` (ASCII subset). -/
def pySpace (c : Char) : Bool :=
  c = ' ' || c = '\t' || c = '\n' || c = '\r' || c = '\x0b' || c = '\x0c'

/-- Python `str.strip()` on a character list. -/
def pyStrip (s : List Char) : List Char :=
  ((s.dropWhile pySpace).reverse.dropWhile pySpace).reverse

/-- Python's `str.lower` on one character (ASCII range, which is all the
source code relies on). -/
def lowerChar (c : Char) : Char :=
  if 'A' ≤ c && c ≤ 'Z' then Char.ofNat (c.toNat + 32) else c

/-- Python `str.lower()` on a character list. -/
def lowerStr (s : List Char) : List Char := s.map lowerChar

/-- Python `str.replace(pat, rep)`: replace every non-overlapping occurrence
of `pat`, scanning left to right.  The patterns in the source are the
non-empty literals `"https://doi.org/"`, `"http://doi.org/"` and `"&"`.
The `fuel` argument only makes the recursion structural (each step consumes
at least one character, so `fuel = s.length` never runs out). -/
def replaceAllGo (pat rep : List Char) : Nat → List Char → List Char
  | _, [] => []
  | 0, s => s
  | fuel + 1, c :: cs =>
    if pat ≠ [] ∧ pat.isPrefixOf (c :: cs) then
      rep ++ replaceAllGo pat rep fuel ((c :: cs).drop pat.length)
    else
      c :: replaceAllGo pat rep fuel cs

def replaceAll (pat rep s : List Char) : List Char :=
  replaceAllGo pat rep s.length s

/-- `re.sub(r"\s+", " ", s)`: collapse each whitespace run to one space.
The boolean argument records whether the previous character was whitespace. -/
def squeezeWsGo : Bool → List Char → List Char
  | _, [] => []
  | prevWs, c :: cs =>
    if pySpace c then
      if prevWs then squeezeWsGo true cs else ' ' :: squeezeWsGo true cs
    else
      c :: squeezeWsGo false cs

def squeezeWs (s : List Char) : List Char := squeezeWsGo false s

/-- Keep only `[a-z0-9 ]`, i.e. `re.sub(r"[^a-z0-9 ]", "", s)`. -/
def keepTitleChar (c : Char) : Bool :=
  ('a' ≤ c && c ≤ 'z') || ('0' ≤ c && c ≤ '9') || c = ' '

/-- Keep only `[a-z0-9]`, i.e. `re.sub(r"[^a-z0-9]+", "", s)`. -/
def keepAlnumChar (c : Char) : Bool :=
  ('a' ≤ c && c ≤ 'z') || ('0' ≤ c && c ≤ '9')

/-- `normalise_title` from the source: lowercase, collapse whitespace,
drop characters outside `[a-z0-9 ]`, strip. -/
def normalise_title (t : List Char) : List Char :=
  pyStrip ((squeezeWs (lowerStr t)).filter keepTitleChar)

/-- `norm_doi` from the source: strip, lowercase, then drop the
`https://doi.org/` and `http://doi.org/` scheme prefixes (as substring
replacements, in that order). -/
def norm_doi (doi : List Char) : List Char :=
  replaceAll "http://doi.org/".data []
    (replaceAll "https://doi.org/".data [] (lowerStr (pyStrip doi)))

/-- Python `d.split("-")` (splitting on the one-character separator). -/
def splitDash : List Char → List (List Char)
  | [] => [[]]
  | c :: cs =>
    if c = '-' then
      [] :: splitDash cs
    else
      match splitDash cs with
      | [] => [[c]]
      | g :: gs => (c :: g) :: gs

/-- Digits of a Python integer literal after the sign: a non-empty digit
sequence in which single underscores may separate digits (`int("1_0") = 10`,
while `"_1"`, `"1_"` and `"1__0"` all raise). -/
def pyDigitsGo (acc : Nat) : List Char → Option Nat
  | [] => some acc
  | '_' :: c :: cs =>
    if c.isDigit then pyDigitsGo (acc * 10 + (c.toNat - 48)) cs else none
  | c :: cs =>
    if c.isDigit then pyDigitsGo (acc * 10 + (c.toNat - 48)) cs else none

def pyDigits : List Char → Option Nat
  | [] => none
  | c :: cs => if c.isDigit then pyDigitsGo (c.toNat - 48) cs else none

/-- Python `int(s)` on ASCII input: optional surrounding whitespace, an
optional sign, then digits (underscore-separated allowed); `none` models a
raised `ValueError`. -/
def pyInt (s : List Char) : Option Int :=
  match pyStrip s with
  | '+' :: rest => (pyDigits rest).map Int.ofNat
  | '-' :: rest => (pyDigits rest).map (fun n => -(n : Int))
  | rest => (pyDigits rest).map Int.ofNat

/-- Day count of `datetime.date`'s month `m` in year `y` (proleptic
Gregorian, as Python's constructor validates). -/
def daysInMonth (y m : Nat) : Nat :=
  if m = 2 then
    if y % 4 = 0 && (y % 100 ≠ 0 || y % 400 = 0) then 29 else 28
  else if m = 4 || m = 6 || m = 9 || m = 11 then 30
  else 31

/-- The bounds `datetime.date(y, m, d)` enforces before constructing. -/
def dateOK (y m d : Int) : Bool :=
  1 ≤ y && y ≤ 9999 && 1 ≤ m && m ≤ 12 && 1 ≤ d &&
    d ≤ (daysInMonth y.toNat m.toNat : Int)

/-- Encoding of `datetime.date(y, m, d)`; see the file header. -/
def encodeDate (y m d : Nat) : Nat := y * 10000 + m * 100 + d

/-- `datetime.date.min = date(1, 1, 1)`. -/
def dateMin : Nat := encodeDate 1 1 1

/-- The body of `parse_date`'s `try` block: unpack `d.split("-")` into
exactly three components, convert each with `int`, construct the date.
`none` models any raised exception. -/
def parseDateParts (d : List Char) : Option Nat :=
  match splitDash d with
  | [ys, ms, ds] =>
    match pyInt ys, pyInt ms, pyInt ds with
    | some y, some m, some dd =>
      if dateOK y m dd then some (encodeDate y.toNat m.toNat dd.toNat) else none
    | _, _, _ => none
  | _ => none

/-- `parse_date` from the source: empty input returns `date.min`
immediately; otherwise the `try` block runs and any exception is caught,
returning `date.min`. -/
def parse_date (d : List Char) : Nat :=
  if d = [] then dateMin else (parseDateParts d).getD dateMin

/-- A raw OpenAlex work, restricted to the fields `update_pubs.py` reads.
`Option` marks fields whose JSON key may be absent (the code applies
`or ""` / `or {}` defaults); each element of `authorships` is the
`author.display_name` of one authorship (absent when the key is missing).
`venue` flattens `primary_location.source.display_name`. -/
structure Work where
  doi : Option String
  title : Option String
  publication_year : Option Nat
  publication_date : Option String
  cited_by_count : Option Int
  wtype : Option String
  venue : Option String
  authorships : List (Option String)
deriving DecidableEq, Repr

/-- The bib-entry dict built by `work_to_entry` (first component of its
result).  Optional fields are the ones the code sets conditionally. -/
structure BibEntry where
  entrytype : String
  id : String
  title : String
  author : String
  year : Option String
  journal : Option String
  doi : Option String
  date : Option String
  note : Option String
  keywords : String
deriving DecidableEq, Repr

/-- The web dict built by `work_to_entry` (second component of its result).
`year` is `publication_year or ""`; the empty string is represented by
`none` (the falsy-int-or-empty-string union collapsed to an option). -/
structure WebItem where
  id : String
  title : String
  year : Option Nat
  date : String
  venue : String
  doi : String
  doi_url : Option String
  cited_by_count : Option Int
  keywords : List String
  authors : List String
  wtype : String
deriving DecidableEq, Repr

/-- `doi = (w.get("doi") or "").strip()` followed by
`doi.replace("https://doi.org/", "").replace("http://doi.org/", "").lower()
if doi else ""`. -/
def doiClean (w : Work) : List Char :=
  let doi := pyStrip (w.doi.getD "").data
  if doi = [] then []
  else lowerStr (replaceAll "http://doi.org/".data []
    (replaceAll "https://doi.org/".data [] doi))

/-- `year = w.get("publication_year") or ""` rendered as the string the code
interpolates (`f"{year}"` / `str(year)`): empty when absent or zero. -/
def yearStr (w : Work) : String :=
  match w.publication_year with
  | none => ""
  | some y => if y = 0 then "" else toString y

/-- `journal = (...display_name) or ""` then `journal.replace("&", r"\&")`. -/
def journalOf (w : Work) : List Char :=
  replaceAll "&".data "\\&".data (w.venue.getD "").data

/-- `authors_to_bib`: the `display_name`s present and non-empty, joined by
`" and "`.  (The web dict's `authors` comprehension uses the same truthiness
filter, so both derive from this list.) -/
def authorNames (w : Work) : List String :=
  w.authorships.filterMap (fun a => match a with
    | some n => if n = "" then none else some n
    | none => none)

def authors_to_bib (w : Work) : String :=
  String.intercalate " and " (authorNames w)

/-- `first_author = (w.get("authorships") or [{}])[0].get("author", {})
.get("display_name", "author")`. -/
def firstAuthor (w : Work) : String :=
  match w.authorships with
  | [] => "author"
  | a :: _ => a.getD "author"

/-- `surname = (first_author.split() or ["author"])[-1].lower()`:
whitespace-split (dropping empty fields), defaulting to `["author"]`, last
element, lowercased. -/
def surnameOf (w : Work) : List Char :=
  let parts := ((firstAuthor w).data.splitOnP pySpace).filter (· ≠ [])
  match parts.getLast? with
  | none => lowerStr "author".data
  | some p => lowerStr p

/-- The generated identifier (`key`) of `work_to_entry`. -/
def keyOf (w : Work) : String :=
  let surname := surnameOf w
  let year := yearStr w
  if doiClean w ≠ [] then
    let doiKey := (lowerStr (doiClean w)).filter keepAlnumChar
    ⟨surname⟩ ++ year ++ ⟨doiKey.take 32⟩
  else
    ⟨surname⟩ ++ year ++
      ⟨((normalise_title (w.title.getD "").data).take 24).filter keepAlnumChar⟩

/-- `work_to_entry`: builds the bib entry dict and the web dict. -/
def work_to_entry (w : Work) : BibEntry × WebItem :=
  let doi_clean : String := ⟨doiClean w⟩
  let title := w.title.getD ""
  let dateS := w.publication_date.getD ""
  let wtype : String := ⟨lowerStr (w.wtype.getD "").data⟩
  let journal : String := ⟨journalOf w⟩
  let is_journal_article := wtype = "journal-article"
  let has_journal := journal ≠ ""
  let has_doi := doi_clean ≠ ""
  let keywords : List String :=
    if is_journal_article ∨ (has_journal ∧ has_doi) then ["publication"]
    else ["workingpaper"]
  let entrytype : String :=
    if is_journal_article ∨ (has_journal ∧ has_doi) then "article"
    else "unpublished"
  let key := keyOf w
  let entry : BibEntry :=
    { entrytype := entrytype
      id := key
      title := title
      author := authors_to_bib w
      year := if yearStr w ≠ "" then some (yearStr w) else none
      journal := if journal ≠ "" ∧ entrytype = "article" then some journal else none
      doi := if doi_clean ≠ "" then some doi_clean else none
      date := if dateS ≠ "" then some dateS else none
      note := (w.cited_by_count).map (fun n => "Cited by " ++ toString n)
      keywords := String.intercalate "," keywords }
  let web : WebItem :=
    { id := key
      title := title
      year := match w.publication_year with
              | none => none
              | some y => if y = 0 then none else some y
      date := dateS
      venue := journal
      doi := doi_clean
      doi_url := if doi_clean ≠ "" then some ("https://doi.org/" ++ doi_clean) else none
      cited_by_count := w.cited_by_count
      keywords := keywords
      authors := authorNames w
      wtype := wtype }
  (entry, web)

/-- The sets returned by `read_manual_keys`: normalised DOIs and normalised
titles of the manually curated bib files. -/
structure ManualKeys where
  dois : List String
  titles : List String
deriving DecidableEq, Repr

abbrev Pair := BibEntry × WebItem

/-- The `continue` condition of `main`'s loop: skip the pair when
`web.get("doi") and web["doi"] in manual_dois` or
`normalise_title(web.get("title", "")) in manual_titles`. -/
def skippedByManual (mk : ManualKeys) (web : WebItem) : Bool :=
  (web.doi ≠ "" && mk.dois.contains web.doi) ||
    mk.titles.contains ⟨normalise_title web.title.data⟩

/-- `main`'s loop over `works`: convert, drop manual-matching pairs.  The
loop appends each surviving pair to `pub_pairs` or `wp_pairs`; modelled as a
single surviving list that the two category filters below split. -/
def keptPairs (works : List Work) (mk : ManualKeys) : List Pair :=
  works.filterMap (fun w =>
    let p := work_to_entry w
    if skippedByManual mk p.2 then none else some p)

/-- `if "publication" in (web.get("keywords") or [])`. -/
def isPubPair (p : Pair) : Bool := p.2.keywords.contains "publication"

def pubPre (works : List Work) (mk : ManualKeys) : List Pair :=
  (keptPairs works mk).filter isPubPair

def wpPre (works : List Work) (mk : ManualKeys) : List Pair :=
  (keptPairs works mk).filter (fun p => !isPubPair p)

/-- `key = f"doi:{doi}" if doi else f"title:{tkey}"` with
`doi = norm_doi(web.get("doi", ""))`, `tkey = normalise_title(web...title)`. -/
def normKeyOf (web : WebItem) : String :=
  let doi := norm_doi web.doi.data
  if doi ≠ [] then "doi:" ++ (⟨doi⟩ : String)
  else "title:" ++ (⟨normalise_title web.title.data⟩ : String)

/-- `parse_date(web.get("date"))`, the comparison key used by the merge and
the final sort. -/
def dOf (p : Pair) : Nat := parse_date p.2.date.data

/-- Association-list lookup, modelling `best.get(key)` on a `dict` whose
keys are kept in insertion order. -/
def lookupA : List (String × Pair) → String → Option Pair
  | [], _ => none
  | (k, v) :: rest, key => if k = key then some v else lookupA rest key

/-- `best[key] = value` when `key` is already present: replace the stored
value in place (dict update keeps the key's original position). -/
def replaceA : List (String × Pair) → String → Pair → List (String × Pair)
  | [], _, _ => []
  | (k, v) :: rest, key, p =>
    if k = key then (k, p) :: rest else (k, v) :: replaceA rest key p

/-- One iteration of `dedupe_keep_newest`'s loop body (`dOf` abbreviates
the `parse_date(web.get("date"))` comparison of the source). -/
def bestStep (best : List (String × Pair)) (p : Pair) : List (String × Pair) :=
  let key := normKeyOf p.2
  match lookupA best key with
  | none => best ++ [(key, p)]
  | some cur => if dOf p > dOf cur then replaceA best key p else best

/-- The `best` dict after the loop, as an insertion-ordered association
list. -/
def bestFold (pairs : List Pair) : List (String × Pair) :=
  pairs.foldl bestStep []

/-- The final `out.sort(key=..., reverse=True)` comparison: `a` may precede
`b` iff `a`'s parsed date is at least `b`'s (Python's sort is stable, and a
stable descending sort is exactly insertion sort under this relation). -/
def sortRel (a b : Pair) : Prop := dOf b ≤ dOf a

instance : DecidableRel sortRel := fun a b => Nat.decLe (dOf b) (dOf a)

instance : IsTotal Pair sortRel :=
  ⟨fun a b => Nat.le_total (dOf b) (dOf a)⟩

instance : IsTrans Pair sortRel :=
  ⟨fun _ _ _ h1 h2 => Nat.le_trans h2 h1⟩

/-- `dedupe_keep_newest`: fold the pairs into `best`, take
`list(best.values())`, stable-sort descending by parsed date. -/
def dedupe_keep_newest (pairs : List Pair) : List Pair :=
  List.insertionSort sortRel ((bestFold pairs).map Prod.snd)

/-- Lines 194–195 of `main`: the two deduplicated category lists. -/
def reconcilePairs (works : List Work) (mk : ManualKeys) : List Pair × List Pair :=
  (dedupe_keep_newest (pubPre works mk), dedupe_keep_newest (wpPre works mk))

/-- Lines 197–199 of `main`: the two bib-entry lists and the web JSON list
(publications then working papers). -/
def reconcile (works : List Work) (mk : ManualKeys) :
    List BibEntry × List BibEntry × List WebItem :=
  let c := reconcilePairs works mk
  (c.1.map Prod.fst, c.2.map Prod.fst, (c.1 ++ c.2).map Prod.snd)

/-! ### Lemmas about the `best` dict -/

/-- Both stored components of every association: the stored key is the
pair's normalised key. -/
def keysOK (l : List (String × Pair)) : Prop :=
  ∀ kv ∈ l, normKeyOf kv.2.2 = kv.1

theorem lookupA_append_single (l : List (String × Pair)) (k2 : String)
    (p : Pair) (k : String) :
    lookupA (l ++ [(k2, p)]) k =
      match lookupA l k with
      | some v => some v
      | none => if k2 = k then some p else none := by
  induction l with
  | nil => simp [lookupA]
  | cons kv rest ih =>
    by_cases h : kv.1 = k
    · simp [lookupA, h]
    · simpa [lookupA, h] using ih

theorem lookupA_replaceA (l : List (String × Pair)) (k2 : String) (p : Pair)
    (k : String) :
    lookupA (replaceA l k2 p) k =
      if k2 = k then (lookupA l k).map (fun _ => p) else lookupA l k := by
  induction l with
  | nil => simp [lookupA, replaceA]
  | cons kv rest ih =>
    obtain ⟨k1, v⟩ := kv
    by_cases h2 : k1 = k2
    · by_cases h : k1 = k
      · simp [replaceA, lookupA, h2, h, h2 ▸ h]
      · have hne : ¬ k2 = k := fun hh => h (h2.trans hh)
        simp [replaceA, lookupA, h2, h, hne]
    · by_cases h : k1 = k
      · have hne : ¬ k2 = k := fun hh => h2 (h.trans hh.symm)
        simp [replaceA, lookupA, h2, h, hne, show ¬ k = k2 from fun hh => hne hh.symm]
      · simp [replaceA, lookupA, h2, h, ih]

theorem replaceA_map_fst (l : List (String × Pair)) (k2 : String) (p : Pair) :
    (replaceA l k2 p).map Prod.fst = l.map Prod.fst := by
  induction l with
  | nil => rfl
  | cons kv rest ih =>
    by_cases h : kv.1 = k2
    · obtain ⟨k1, v⟩ := kv
      simp only at h
      simp [replaceA, h]
    · obtain ⟨k1, v⟩ := kv
      simp only at h
      simp [replaceA, h, ih]

theorem mem_replaceA {kv : String × Pair} {k2 : String} {p : Pair} :
    ∀ {l : List (String × Pair)}, kv ∈ replaceA l k2 p → kv ∈ l ∨ kv = (k2, p) := by
  intro l
  induction l with
  | nil => intro h; simp [replaceA] at h
  | cons kv1 rest ih =>
    obtain ⟨k1, v⟩ := kv1
    intro h
    by_cases hk : k1 = k2
    · rw [replaceA, if_pos hk] at h
      rcases List.mem_cons.mp h with h | h
      · right; rw [h, hk]
      · left; exact List.mem_cons_of_mem _ h
    · rw [replaceA, if_neg hk] at h
      rcases List.mem_cons.mp h with h | h
      · left; exact h ▸ List.mem_cons_self _ _
      · rcases ih h with h' | h'
        · left; exact List.mem_cons_of_mem _ h'
        · right; exact h'

theorem lookupA_eq_none_iff (l : List (String × Pair)) (k : String) :
    lookupA l k = none ↔ k ∉ l.map Prod.fst := by
  induction l with
  | nil => simp [lookupA]
  | cons kv rest ih =>
    by_cases h : kv.1 = k
    · simp [lookupA, h]
    · constructor
      · intro hn
        rw [lookupA, if_neg h] at hn
        simp only [List.map_cons, List.mem_cons]
        push_neg
        exact ⟨fun hh => h hh.symm, ih.mp hn⟩
      · intro hn
        rw [lookupA, if_neg h]
        apply ih.mpr
        intro hmem
        exact hn (by simp only [List.map_cons, List.mem_cons]; right; exact hmem)

/-- `bestStep` with the `let` unfolded, for rewriting. -/
theorem bestStep_eq (l : List (String × Pair)) (p : Pair) :
    bestStep l p =
      match lookupA l (normKeyOf p.2) with
      | none => l ++ [(normKeyOf p.2, p)]
      | some cur => if dOf p > dOf cur then replaceA l (normKeyOf p.2) p else l := rfl

theorem bestStep_none {l : List (String × Pair)} {p : Pair}
    (h : lookupA l (normKeyOf p.2) = none) :
    bestStep l p = l ++ [(normKeyOf p.2, p)] := by
  rw [bestStep_eq, h]

theorem bestStep_some {l : List (String × Pair)} {p cur : Pair}
    (h : lookupA l (normKeyOf p.2) = some cur) :
    bestStep l p = if dOf p > dOf cur then replaceA l (normKeyOf p.2) p else l := by
  rw [bestStep_eq, h]

theorem bestStep_inv {l : List (String × Pair)} {p : Pair}
    (hOK : keysOK l) (hN : (l.map Prod.fst).Nodup) :
    keysOK (bestStep l p) ∧ ((bestStep l p).map Prod.fst).Nodup := by
  rw [bestStep_eq]
  cases hLook : lookupA l (normKeyOf p.2) with
  | none =>
    constructor
    · intro kv hkv
      rcases List.mem_append.mp hkv with h | h
      · exact hOK kv h
      · simp at h
        subst h
        rfl
    · have hnot : normKeyOf p.2 ∉ l.map Prod.fst :=
        (lookupA_eq_none_iff l _).mp hLook
      simpa using List.Nodup.append hN (by simp) (by
        intro a ha hb
        simp at hb
        subst hb
        exact hnot ha)
  | some cur =>
    by_cases hd : dOf p > dOf cur
    · simp only [if_pos hd]
      constructor
      · intro kv hkv
        rcases mem_replaceA hkv with h | h
        · exact hOK kv h
        · subst h
          rfl
      · rw [replaceA_map_fst]
        exact hN
    · simp only [if_neg hd]
      exact ⟨hOK, hN⟩

theorem bestFold_inv (pairs : List Pair) :
    ∀ acc, keysOK acc → (acc.map Prod.fst).Nodup →
      keysOK (pairs.foldl bestStep acc) ∧
        ((pairs.foldl bestStep acc).map Prod.fst).Nodup := by
  induction pairs with
  | nil => intro acc h1 h2; exact ⟨h1, h2⟩
  | cons p rest ih =>
    intro acc h1 h2
    have h := bestStep_inv (p := p) h1 h2
    exact ih (bestStep acc p) h.1 h.2

theorem bestFold_keysOK (pairs : List Pair) : keysOK (bestFold pairs) :=
  (bestFold_inv pairs [] (by intro kv h; simp at h) (by simp)).1

theorem bestFold_nodup (pairs : List Pair) :
    ((bestFold pairs).map Prod.fst).Nodup :=
  (bestFold_inv pairs [] (by intro kv h; simp at h) (by simp)).2

theorem mem_snd_bestStep {v : Pair} {l : List (String × Pair)} {p : Pair}
    (h : v ∈ (bestStep l p).map Prod.snd) :
    v ∈ l.map Prod.snd ∨ v = p := by
  cases hLook : lookupA l (normKeyOf p.2) with
  | none =>
    rw [bestStep_none hLook] at h
    simp only [List.map_append, List.mem_append] at h
    rcases h with h | h
    · left; exact h
    · right; simpa using h
  | some cur =>
    rw [bestStep_some hLook] at h
    by_cases hd : dOf p > dOf cur
    · rw [if_pos hd] at h
      rcases List.mem_map.mp h with ⟨kv, hkv, hv⟩
      rcases mem_replaceA hkv with h' | h'
      · left; exact hv ▸ List.mem_map_of_mem Prod.snd h'
      · right; rw [← hv, h']
    · rw [if_neg hd] at h
      left; exact h

theorem mem_snd_bestFold (pairs : List Pair) :
    ∀ acc v, v ∈ (pairs.foldl bestStep acc).map Prod.snd →
      v ∈ acc.map Prod.snd ∨ v ∈ pairs := by
  induction pairs with
  | nil => intro acc v h; left; exact h
  | cons p rest ih =>
    intro acc v h
    rcases ih (bestStep acc p) v h with h' | h'
    · rcases mem_snd_bestStep h' with h'' | h''
      · left; exact h''
      · right; simp [h'']
    · right; exact List.mem_cons_of_mem _ h'

/-- Every element of `dedupe_keep_newest pairs` is one of the input pairs,
unchanged. -/
theorem dedupe_subset {pairs : List Pair} {p : Pair}
    (h : p ∈ dedupe_keep_newest pairs) : p ∈ pairs := by
  unfold dedupe_keep_newest at h
  rw [List.mem_insertionSort] at h
  rcases mem_snd_bestFold pairs [] p h with h' | h'
  · simp at h'
  · exact h'

/-! ### The per-key selection performed by the fold -/

/-- How the stored value for one key evolves: installed when first seen,
replaced exactly when the incoming pair's parsed date is strictly newer. -/
def selStep (o : Option Pair) (p : Pair) : Option Pair :=
  match o with
  | none => some p
  | some cur => if dOf p > dOf cur then some p else some cur

def foldSel (o : Option Pair) (l : List Pair) : Option Pair :=
  l.foldl selStep o

/-- The key-`k` group of an input list, in encounter order. -/
def groupFor (k : String) (pairs : List Pair) : List Pair :=
  pairs.filter (fun p => normKeyOf p.2 == k)

/-- The lookup of the finished `best` dict at any key is the `selStep` fold
over that key's group. -/
theorem bestFold_lookup (pairs : List Pair) :
    ∀ (acc : List (String × Pair)) (k : String),
      lookupA (pairs.foldl bestStep acc) k =
        foldSel (lookupA acc k) (groupFor k pairs) := by
  induction pairs with
  | nil => intro acc k; rfl
  | cons p rest ih =>
    intro acc k
    by_cases hk : normKeyOf p.2 = k
    · have hgrp : groupFor k (p :: rest) = p :: groupFor k rest := by
        simp [groupFor, List.filter, hk]
      rw [List.foldl_cons, hgrp, ih (bestStep acc p) k]
      have hsel : foldSel (lookupA acc k) (p :: groupFor k rest) =
          foldSel (selStep (lookupA acc k) p) (groupFor k rest) := rfl
      rw [hsel]
      congr 1
      cases hLook : lookupA acc (normKeyOf p.2) with
      | none =>
        rw [bestStep_none hLook, lookupA_append_single]
        rw [hk] at hLook
        rw [hLook, if_pos hk]
        simp [selStep]
      | some cur =>
        rw [bestStep_some hLook]
        rw [hk] at hLook
        by_cases hd : dOf p > dOf cur
        · rw [if_pos hd, lookupA_replaceA, if_pos hk, hLook]
          simp [selStep, hLook, hd]
        · rw [if_neg hd, hLook]
          simp [selStep, hLook, hd]
    · have hgrp : groupFor k (p :: rest) = groupFor k rest := by
        simp [groupFor, List.filter_cons, beq_iff_eq, hk]
      rw [List.foldl_cons, hgrp, ih (bestStep acc p) k]
      congr 1
      cases hLook : lookupA acc (normKeyOf p.2) with
      | none =>
        rw [bestStep_none hLook, lookupA_append_single]
        cases hAcc : lookupA acc k with
        | none => rw [if_neg hk]
        | some v => rfl
      | some cur =>
        rw [bestStep_some hLook]
        by_cases hd : dOf p > dOf cur
        · rw [if_pos hd, lookupA_replaceA, if_neg hk]
        · rw [if_neg hd]

/-- The champion invariant for `foldSel` on a non-empty champion: it ends
on the first element (champion included) attaining the maximal parsed
date — strictly later elements never tie it out. -/
theorem foldSel_spec (l : List Pair) :
    ∀ c : Pair, ∃ v, foldSel (some c) l = some v ∧
      ((v = c ∧ ∀ q ∈ l, dOf q ≤ dOf c) ∨
       (∃ l1 l2, l = l1 ++ v :: l2 ∧ dOf c < dOf v ∧
         (∀ q ∈ l1, dOf q < dOf v) ∧ (∀ q ∈ l2, dOf q ≤ dOf v))) := by
  induction l with
  | nil =>
    intro c
    exact ⟨c, rfl, Or.inl ⟨rfl, by intro q hq; simp at hq⟩⟩
  | cons p rest ih =>
    intro c
    by_cases hd : dOf p > dOf c
    · obtain ⟨v, hv, hcase⟩ := ih p
      refine ⟨v, ?_, ?_⟩
      · show foldSel (selStep (some c) p) rest = some v
        rw [show selStep (some c) p = some p from by simp [selStep, hd]]
        exact hv
      · rcases hcase with ⟨hvc, hall⟩ | ⟨l1, l2, hsplit, hlt, h1, h2⟩
        · right
          exact ⟨[], rest, by simp [hvc], by rw [hvc]; exact hd,
            by intro q hq; simp at hq, by rw [hvc]; exact hall⟩
        · right
          refine ⟨p :: l1, l2, by simp [hsplit], lt_trans hd hlt, ?_, h2⟩
          intro q hq
          rcases List.mem_cons.mp hq with h | h
          · exact h ▸ hlt
          · exact h1 q h
    · obtain ⟨v, hv, hcase⟩ := ih c
      have hple : dOf p ≤ dOf c := Nat.le_of_not_lt hd
      refine ⟨v, ?_, ?_⟩
      · show foldSel (selStep (some c) p) rest = some v
        rw [show selStep (some c) p = some c from by simp [selStep, hd]]
        exact hv
      · rcases hcase with ⟨hvc, hall⟩ | ⟨l1, l2, hsplit, hlt, h1, h2⟩
        · left
          refine ⟨hvc, ?_⟩
          intro q hq
          rcases List.mem_cons.mp hq with h | h
          · exact h ▸ hple
          · exact hall q h
        · right
          refine ⟨p :: l1, l2, by simp [hsplit], hlt, ?_, h2⟩
          intro q hq
          rcases List.mem_cons.mp hq with h | h
          · exact h ▸ lt_of_le_of_lt hple hlt
          · exact h1 q h

/-- `foldSel` from `none` on a non-empty group: the result is the first
element of the group attaining the maximal parsed date. -/
theorem foldSel_none_spec {l : List Pair} (h : l ≠ []) :
    ∃ v l1 l2, foldSel none l = some v ∧ l = l1 ++ v :: l2 ∧
      (∀ q ∈ l1, dOf q < dOf v) ∧ (∀ q ∈ l, dOf q ≤ dOf v) := by
  rcases l with _ | ⟨p, rest⟩
  · exact absurd rfl h
  · obtain ⟨v, hv, hcase⟩ := foldSel_spec rest p
    have hstep : foldSel none (p :: rest) = foldSel (some p) rest := rfl
    rcases hcase with ⟨hvc, hall⟩ | ⟨l1, l2, hsplit, hlt, h1, h2⟩
    · refine ⟨v, [], rest, hstep ▸ hv, by simp [hvc], by intro q hq; simp at hq, ?_⟩
      intro q hq
      rcases List.mem_cons.mp hq with h' | h'
      · rw [h', hvc]
      · rw [hvc]; exact hall q h'
    · refine ⟨v, p :: l1, l2, hstep ▸ hv, by simp [hsplit], ?_, ?_⟩
      · intro q hq
        rcases List.mem_cons.mp hq with h' | h'
        · exact h' ▸ hlt
        · exact h1 q h'
      · intro q hq
        rcases List.mem_cons.mp hq with h' | h'
        · exact h' ▸ le_of_lt hlt
        · rw [hsplit] at h'
          rcases List.mem_append.mp h' with h'' | h''
          · exact le_of_lt (h1 q h'')
          · rcases List.mem_cons.mp h'' with h3 | h3
            · exact h3 ▸ le_refl _
            · exact h2 q h3

/-- In a `best` dict satisfying the invariants, filtering the values by a
key yields exactly the stored entry for that key (or nothing). -/
theorem values_filter (l : List (String × Pair)) (k : String)
    (hOK : keysOK l) (hN : (l.map Prod.fst).Nodup) :
    (l.map Prod.snd).filter (fun p => normKeyOf p.2 == k) =
      match lookupA l k with
      | some v => [v]
      | none => [] := by
  induction l with
  | nil => rfl
  | cons kv rest ih =>
    obtain ⟨k1, v1⟩ := kv
    have hOK1 : normKeyOf v1.2 = k1 := hOK (k1, v1) (List.mem_cons_self _ _)
    have hOKrest : keysOK rest := fun kv h => hOK kv (List.mem_cons_of_mem _ h)
    have hNrest : (rest.map Prod.fst).Nodup := (List.nodup_cons.mp hN).2
    have hk1 : k1 ∉ rest.map Prod.fst := (List.nodup_cons.mp hN).1
    by_cases h : k1 = k
    · have hcond : (normKeyOf v1.2 == k) = true := by
        rw [hOK1, h]; exact beq_self_eq_true k
      have hrest : (rest.map Prod.snd).filter (fun p => normKeyOf p.2 == k) = [] := by
        apply List.filter_eq_nil_iff.mpr
        intro p hp
        rcases List.mem_map.mp hp with ⟨kv2, hkv2, hp2⟩
        have : normKeyOf kv2.2.2 = kv2.1 := hOKrest kv2 hkv2
        have hne : kv2.1 ≠ k := by
          intro hh
          exact hk1 (by rw [h, ← hh]; exact List.mem_map_of_mem Prod.fst hkv2)
        rw [← hp2]
        simp [this, hne]
      rw [List.map_cons, List.filter_cons, hcond, hrest, lookupA, if_pos h]
      simp
    · have hcond : ¬ ((normKeyOf v1.2 == k) = true) := by
        rw [hOK1]; simp [h]
      rw [List.map_cons, List.filter_cons, if_neg hcond, lookupA, if_neg h]
      exact ih hOKrest hNrest

/-- The values of the finished `best` dict have pairwise distinct
normalised keys. -/
theorem bestFold_values_pairwise (pairs : List Pair) :
    List.Pairwise (fun a b : Pair => normKeyOf a.2 ≠ normKeyOf b.2)
      ((bestFold pairs).map Prod.snd) := by
  apply List.pairwise_map.mpr
  have hOK := bestFold_keysOK pairs
  have hN := bestFold_nodup pairs
  have hfst : List.Pairwise (fun a b : String × Pair => a.1 ≠ b.1) (bestFold pairs) :=
    List.pairwise_map.mp hN
  apply List.Pairwise.imp_of_mem ?_ hfst
  intro a b ha hb hne
  rw [hOK a ha, hOK b hb]
  exact hne

/-- `dedupe_keep_newest` never returns two pairs with the same normalised
key. -/
theorem dedupe_pairwise_keys (pairs : List Pair) :
    List.Pairwise (fun a b : Pair => normKeyOf a.2 ≠ normKeyOf b.2)
      (dedupe_keep_newest pairs) := by
  have hperm : List.Perm (dedupe_keep_newest pairs) ((bestFold pairs).map Prod.snd) :=
    List.perm_insertionSort sortRel _
  have hsym : Symmetric (fun a b : Pair => normKeyOf a.2 ≠ normKeyOf b.2) :=
    fun a b h => fun hh => h hh.symm
  exact (hperm.pairwise_iff (fun hxy => hsym hxy)).mpr (bestFold_values_pairwise pairs)

/-- Filtering the merged output by a key gives the single retained pair
for that key (or nothing when the key never occurred). -/
theorem dedupe_filter_eq (pairs : List Pair) (k : String) :
    (dedupe_keep_newest pairs).filter (fun p => normKeyOf p.2 == k) =
      match foldSel none (groupFor k pairs) with
      | some v => [v]
      | none => [] := by
  have hperm : List.Perm (dedupe_keep_newest pairs) ((bestFold pairs).map Prod.snd) :=
    List.perm_insertionSort sortRel _
  have hflt := hperm.filter (fun p => normKeyOf p.2 == k)
  rw [values_filter (bestFold pairs) k (bestFold_keysOK pairs) (bestFold_nodup pairs)] at hflt
  have hlook : lookupA (bestFold pairs) k = foldSel none (groupFor k pairs) := by
    have := bestFold_lookup pairs [] k
    simpa [bestFold, lookupA] using this
  rw [hlook] at hflt
  cases hsel : foldSel none (groupFor k pairs) with
  | none =>
    rw [hsel] at hflt
    exact hflt.eq_nil
  | some v =>
    rw [hsel] at hflt
    exact List.perm_singleton.mp hflt

/-- The merged output is sorted descending by parsed date (`parse_date` of
a missing date is `date.min`, so date-less pairs sort last). -/
theorem dedupe_sorted (pairs : List Pair) :
    List.Sorted sortRel (dedupe_keep_newest pairs) :=
  List.sorted_insertionSort sortRel _

/-! ### Provenance of pipeline elements -/

theorem mem_keptPairs {works : List Work} {mk : ManualKeys} {p : Pair}
    (h : p ∈ keptPairs works mk) :
    ∃ w ∈ works, p = work_to_entry w ∧ skippedByManual mk p.2 = false := by
  unfold keptPairs at h
  obtain ⟨w, hw, hfw⟩ := List.mem_filterMap.mp h
  by_cases hs : skippedByManual mk (work_to_entry w).2
  · rw [if_pos hs] at hfw
    exact absurd hfw (by simp)
  · rw [if_neg hs] at hfw
    obtain rfl := Option.some.inj hfw
    exact ⟨w, hw, rfl, Bool.eq_false_iff.mpr hs⟩

theorem mem_pubPre {works : List Work} {mk : ManualKeys} {p : Pair}
    (h : p ∈ pubPre works mk) :
    ∃ w ∈ works, p = work_to_entry w ∧ skippedByManual mk p.2 = false :=
  mem_keptPairs (List.mem_of_mem_filter h)

theorem mem_wpPre {works : List Work} {mk : ManualKeys} {p : Pair}
    (h : p ∈ wpPre works mk) :
    ∃ w ∈ works, p = work_to_entry w ∧ skippedByManual mk p.2 = false :=
  mem_keptPairs (List.mem_of_mem_filter h)

/-- Every pair surviving to either deduplicated category list comes from
an input work that passed the manual-precedence filter. -/
theorem mem_reconcilePairs {works : List Work} {mk : ManualKeys} {p : Pair}
    (h : p ∈ (reconcilePairs works mk).1 ∨ p ∈ (reconcilePairs works mk).2) :
    ∃ w ∈ works, p = work_to_entry w ∧ skippedByManual mk p.2 = false := by
  rcases h with h | h
  · exact mem_pubPre (dedupe_subset h)
  · exact mem_wpPre (dedupe_subset h)

/-! ### Spec-side definitions (worded from `spec.md`, for refinement) -/

/-- Modelled on the spec's classification sentence: a publication iff the
work type is `journal-article`, or the venue display name is non-empty and
the normalised DOI is non-empty. -/
def isPublicationSpec (w : Work) : Prop :=
  (⟨lowerStr (w.wtype.getD "").data⟩ : String) = "journal-article" ∨
    (w.venue.getD "" ≠ "" ∧ (⟨doiClean w⟩ : String) ≠ "")

instance (w : Work) : Decidable (isPublicationSpec w) := by
  unfold isPublicationSpec; infer_instance

/-- Modelled on the spec's identifier sentence: first author's surname
lowercased (`author` if none), then the year (empty if absent), then — with
a DOI — the DOI stripped of non-alphanumerics and truncated to 32
characters, otherwise the normalised title truncated to 24 characters with
non-alphanumerics stripped. -/
def specIdOf (w : Work) : String :=
  let suffix : List Char :=
    if doiClean w ≠ [] then
      ((lowerStr (doiClean w)).filter keepAlnumChar).take 32
    else
      ((normalise_title (w.title.getD "").data).take 24).filter keepAlnumChar
  (⟨surnameOf w⟩ : String) ++ yearStr w ++ (⟨suffix⟩ : String)

/-- The manual-skip condition read off the bib entry instead of the web
dict (the entry determines the same DOI and title). -/
def skipE (mk : ManualKeys) (e : BibEntry) : Bool :=
  (e.doi.getD "" ≠ "" && mk.dois.contains (e.doi.getD "")) ||
    mk.titles.contains ⟨normalise_title e.title.data⟩

/-! ### Small bridging lemmas -/

theorem replaceAllGo_eq_nil_iff {pat rep : List Char} (hrep : rep ≠ [])
    (fuel : Nat) (s : List Char) :
    replaceAllGo pat rep fuel s = [] ↔ s = [] := by
  cases s with
  | nil => cases fuel <;> simp [replaceAllGo]
  | cons c cs =>
    cases fuel with
    | zero => simp [replaceAllGo]
    | succ n =>
      rw [replaceAllGo]
      split
      · simp only [List.cons_ne_nil, iff_false]
        exact fun hh => List.append_ne_nil_of_left_ne_nil hrep _ hh
      · simp

theorem data_eq_nil_iff (s : String) : s.data = [] ↔ s = "" := by
  constructor
  · intro h
    apply String.ext
    rw [h]
  · intro h
    rw [h]

theorem journalOf_eq_nil_iff (w : Work) : journalOf w = [] ↔ w.venue.getD "" = "" := by
  unfold journalOf replaceAll
  rw [replaceAllGo_eq_nil_iff (by simp)]
  exact data_eq_nil_iff _

theorem string_mk_eq_empty_iff (l : List Char) : (⟨l⟩ : String) = "" ↔ l = [] := by
  constructor
  · intro h
    have := congrArg String.data h
    simpa using this
  · intro h
    rw [h]

/-- The keyword list of `work_to_entry` as the classification condition. -/
theorem keywords_eq (w : Work) :
    (work_to_entry w).2.keywords =
      if (⟨lowerStr (w.wtype.getD "").data⟩ : String) = "journal-article"
          ∨ ((⟨journalOf w⟩ : String) ≠ "" ∧ (⟨doiClean w⟩ : String) ≠ "")
      then ["publication"] else ["workingpaper"] := rfl

theorem web_doi_eq (w : Work) : (work_to_entry w).2.doi = (⟨doiClean w⟩ : String) := rfl

theorem web_title_eq (w : Work) : (work_to_entry w).2.title = w.title.getD "" := rfl

theorem entry_doi_getD (w : Work) :
    ((work_to_entry w).1.doi.getD "") = (⟨doiClean w⟩ : String) := by
  show ((if (⟨doiClean w⟩ : String) ≠ "" then some (⟨doiClean w⟩ : String) else none).getD "")
      = (⟨doiClean w⟩ : String)
  by_cases h : (⟨doiClean w⟩ : String) = ""
  · rw [if_neg (by simpa using h), Option.getD_none, h]
  · rw [if_pos h, Option.getD_some]

theorem entry_title_eq (w : Work) : (work_to_entry w).1.title = w.title.getD "" := rfl

/-- The skip condition computed from the entry agrees with the one `main`
computes from the web dict, for any pair `work_to_entry` produces. -/
theorem skipE_eq (mk : ManualKeys) (w : Work) :
    skipE mk (work_to_entry w).1 = skippedByManual mk (work_to_entry w).2 := by
  unfold skipE skippedByManual
  rw [entry_doi_getD, entry_title_eq, web_doi_eq, web_title_eq]

theorem reconcile_fst (works : List Work) (mk : ManualKeys) :
    (reconcile works mk).1 = (reconcilePairs works mk).1.map Prod.fst := rfl

theorem reconcile_snd_fst (works : List Work) (mk : ManualKeys) :
    (reconcile works mk).2.1 = (reconcilePairs works mk).2.map Prod.fst := rfl

theorem reconcile_web (works : List Work) (mk : ManualKeys) :
    (reconcile works mk).2.2 =
      ((reconcilePairs works mk).1 ++ (reconcilePairs works mk).2).map Prod.snd := rfl

theorem entry_id_eq (w : Work) : (work_to_entry w).1.id = keyOf w := rfl

theorem web_id_eq (w : Work) : (work_to_entry w).2.id = keyOf w := rfl

/-- A successfully constructed date is at least `date.min`. -/
theorem parseDateParts_ge {d : List Char} {v : Nat}
    (h : parseDateParts d = some v) : dateMin ≤ v := by
  unfold parseDateParts at h
  split at h
  any_goals exact Option.noConfusion h
  split at h
  any_goals exact Option.noConfusion h
  split at h
  any_goals exact Option.noConfusion h
  rename_i hok
  obtain rfl := Option.some.inj h
  unfold dateOK at hok
  simp only [Bool.and_eq_true, decide_eq_true_eq] at hok
  obtain ⟨⟨⟨⟨⟨h1, h2⟩, h3⟩, h4⟩, h5⟩, h6⟩ := hok
  simp only [dateMin, encodeDate]
  omega

theorem venue_ne_iff (w : Work) :
    ((⟨journalOf w⟩ : String) ≠ "") ↔ w.venue.getD "" ≠ "" := by
  apply not_congr
  rw [string_mk_eq_empty_iff]
  exact journalOf_eq_nil_iff w

/-- The category routing condition of `main` coincides with the spec's
classification rule. -/
theorem classification_iff (w : Work) :
    isPubPair (work_to_entry w) = true ↔ isPublicationSpec w := by
  have hcond : ((⟨lowerStr (w.wtype.getD "").data⟩ : String) = "journal-article"
      ∨ ((⟨journalOf w⟩ : String) ≠ "" ∧ (⟨doiClean w⟩ : String) ≠ ""))
      ↔ isPublicationSpec w := by
    unfold isPublicationSpec
    exact or_congr Iff.rfl (and_congr (venue_ne_iff w) Iff.rfl)
  unfold isPubPair
  rw [keywords_eq]
  by_cases hc : isPublicationSpec w
  · rw [if_pos (hcond.mpr hc)]
    exact iff_of_true (by decide) hc
  · rw [if_neg (fun hh => hc (hcond.mp hh))]
    exact iff_of_false (by decide) hc

/-- The generated key follows the spec's identifier recipe. -/
theorem keyOf_eq_specIdOf (w : Work) : keyOf w = specIdOf w := by
  unfold keyOf specIdOf
  by_cases h : doiClean w ≠ []
  · rw [if_pos h, if_pos h]
  · rw [if_neg h, if_neg h]

/-! ### Concrete inputs used by counterexamples and witnesses -/

/-- Empty manual key set. -/
def MK0 : ManualKeys := ⟨[], []⟩

/-- Journal article with DOI `10.1/ab`. -/
def cxWorkA : Work :=
  { doi := some "https://doi.org/10.1/ab", title := some "Alpha",
    publication_year := some 2020, publication_date := some "2020-01-01",
    cited_by_count := none, wtype := some "journal-article", venue := none,
    authorships := [some "A Smith"] }

/-- Journal article with DOI `10.1a/b`: a distinct DOI (distinct
NormalizedKey) that strips to the same alphanumeric suffix `101ab`. -/
def cxWorkB : Work :=
  { doi := some "https://doi.org/10.1a/b", title := some "Beta",
    publication_year := some 2020, publication_date := some "2020-01-02",
    cited_by_count := none, wtype := some "journal-article", venue := none,
    authorships := [some "A Smith"] }

/-- Journal article with DOI `10.1/x` (classified publication by type). -/
def cyWorkA : Work :=
  { doi := some "https://doi.org/10.1/x", title := some "Alpha",
    publication_year := some 2020, publication_date := some "2020-01-01",
    cited_by_count := none, wtype := some "journal-article", venue := none,
    authorships := [some "A Smith"] }

/-- Preprint with the same DOI `10.1/x` but no venue: classified working
paper, so it lands in the other category. -/
def cyWorkB : Work :=
  { doi := some "https://doi.org/10.1/x", title := some "Beta",
    publication_year := some 2021, publication_date := some "2021-01-01",
    cited_by_count := none, wtype := some "preprint", venue := none,
    authorships := [some "A Smith"] }

/-- Same DOI `10.1/z`, dated 2020-01-01. -/
def dupWorkOld : Work :=
  { doi := some "https://doi.org/10.1/z", title := some "Gamma",
    publication_year := some 2020, publication_date := some "2020-01-01",
    cited_by_count := some 1, wtype := some "journal-article", venue := none,
    authorships := [some "A Smith"] }

/-- Same DOI `10.1/z`, dated 2021-06-15. -/
def dupWorkNew : Work :=
  { doi := some "https://doi.org/10.1/z", title := some "Gamma v2",
    publication_year := some 2021, publication_date := some "2021-06-15",
    cited_by_count := some 2, wtype := some "journal-article", venue := none,
    authorships := [some "A Smith"] }

/-- The duplicate pair list fed to the merge in C4's and C10's witnesses. -/
def dupPairs : List Pair := [work_to_entry dupWorkOld, work_to_entry dupWorkNew]

/-- Work type `journal-article`, no DOI. -/
def jaNoDoi : Work :=
  { doi := none, title := some "Delta", publication_year := some 2019,
    publication_date := some "2019-05-01", cited_by_count := none,
    wtype := some "journal-article", venue := none,
    authorships := [some "B Jones"] }

/-- Work type `preprint` with a venue name and a DOI. -/
def preVenueDoi : Work :=
  { doi := some "https://doi.org/10.2/q", title := some "Epsilon",
    publication_year := some 2018, publication_date := some "2018-03-02",
    cited_by_count := none, wtype := some "preprint",
    venue := some "Some Journal", authorships := [some "B Jones"] }

/-- Work type `preprint`, no venue, no DOI. -/
def preBare : Work :=
  { doi := none, title := some "Zeta", publication_year := some 2017,
    publication_date := some "2017-07-07", cited_by_count := none,
    wtype := some "preprint", venue := none, authorships := [some "B Jones"] }

/-- Working paper dated 2019-03-01. -/
def d2019 : Work :=
  { doi := none, title := some "One", publication_year := some 2019,
    publication_date := some "2019-03-01", cited_by_count := none,
    wtype := some "preprint", venue := none, authorships := [some "C Lee"] }

/-- Working paper with no publication date. -/
def dAbsent : Work :=
  { doi := none, title := some "Two", publication_year := none,
    publication_date := none, cited_by_count := none,
    wtype := some "preprint", venue := none, authorships := [some "C Lee"] }

/-- Working paper dated 2022-11-20. -/
def d2022 : Work :=
  { doi := none, title := some "Three", publication_year := some 2022,
    publication_date := some "2022-11-20", cited_by_count := none,
    wtype := some "preprint", venue := none, authorships := [some "C Lee"] }

/-- A work whose DOI is manually curated. -/
def manualWork : Work :=
  { doi := some "https://doi.org/10.1/m", title := some "Curated",
    publication_year := some 2020, publication_date := some "2020-02-02",
    cited_by_count := none, wtype := some "journal-article", venue := none,
    authorships := [some "A Smith"] }

/-- A manual key set already containing `manualWork`'s DOI. -/
def MKman : ManualKeys := ⟨["10.1/m"], []⟩

/-! ### Claim theorems -/

/-- Claim C1, counterexample: the claim states that the combined output
never contains two entries with the same generated identifier.  On the
two-work input `[cxWorkA, cxWorkB]` (distinct DOIs `10.1/ab` and `10.1a/b`,
same author and year) both entries survive deduplication — their
NormalizedKeys differ — yet both identifiers are `smith2020101ab`, because
stripping non-alphanumerics collapses the two DOIs. -/
theorem C1_counterexample :
    ((reconcile [cxWorkA, cxWorkB] MK0).1.map BibEntry.id) =
      ["smith2020101ab", "smith2020101ab"] ∧
    ¬ List.Pairwise (fun a b : BibEntry => a.id ≠ b.id)
        ((reconcile [cxWorkA, cxWorkB] MK0).1) := by
  constructor
  · decide
  · intro h
    have h2 : List.Pairwise (fun a b : String => a ≠ b)
        (((reconcile [cxWorkA, cxWorkB] MK0).1).map BibEntry.id) :=
      List.pairwise_map.mpr h
    rw [show ((reconcile [cxWorkA, cxWorkB] MK0).1.map BibEntry.id) =
        ["smith2020101ab", "smith2020101ab"] from by decide] at h2
    exact (List.pairwise_cons.mp h2).1 "smith2020101ab" (by simp) rfl

/-- Claim C1 (amended): within each category the Reconciler never emits
two entries whose works share a NormalizedKey — each category's output has
pairwise-distinct NormalizedKeys, so the same work is never emitted twice;
identifier uniqueness itself does not hold (see the counterexample). -/
theorem C1_amended_per_category_keys (works : List Work) (mk : ManualKeys) :
    List.Pairwise (fun a b : Pair => normKeyOf a.2 ≠ normKeyOf b.2)
      (reconcilePairs works mk).1 ∧
    List.Pairwise (fun a b : Pair => normKeyOf a.2 ≠ normKeyOf b.2)
      (reconcilePairs works mk).2 :=
  ⟨dedupe_pairwise_keys _, dedupe_pairwise_keys _⟩

/-- Claim C2, counterexample: the claim quantifies over all pairs of
records in the combined output of both categories, but deduplication is
per-category only.  `cyWorkA` (journal article) and `cyWorkB` (preprint
without venue) share DOI `10.1/x`, land in different categories, and both
appear in the web JSON with the same NormalizedKey `doi:10.1/x`. -/
theorem C2_counterexample :
    ((reconcile [cyWorkA, cyWorkB] MK0).2.2.map normKeyOf) =
      ["doi:10.1/x", "doi:10.1/x"] ∧
    ¬ List.Pairwise (fun a b : WebItem => normKeyOf a ≠ normKeyOf b)
        ((reconcile [cyWorkA, cyWorkB] MK0).2.2) := by
  constructor
  · decide
  · intro h
    have h2 : List.Pairwise (fun a b : String => a ≠ b)
        (((reconcile [cyWorkA, cyWorkB] MK0).2.2).map normKeyOf) :=
      List.pairwise_map.mpr h
    rw [show ((reconcile [cyWorkA, cyWorkB] MK0).2.2.map normKeyOf) =
        ["doi:10.1/x", "doi:10.1/x"] from by decide] at h2
    exact (List.pairwise_cons.mp h2).1 "doi:10.1/x" (by simp) rfl

/-- Claim C2 (amended): for all pairs of output records within the same
category, the NormalizedKeys differ. -/
theorem C2_amended_no_duplicate_keys (works : List Work) (mk : ManualKeys) :
    List.Pairwise (fun a b : WebItem => normKeyOf a ≠ normKeyOf b)
      ((reconcilePairs works mk).1.map Prod.snd) ∧
    List.Pairwise (fun a b : WebItem => normKeyOf a ≠ normKeyOf b)
      ((reconcilePairs works mk).2.map Prod.snd) :=
  ⟨List.pairwise_map.mpr (dedupe_pairwise_keys _),
   List.pairwise_map.mpr (dedupe_pairwise_keys _)⟩

/-- Claim C3: a fetched work whose normalised DOI is in the manual DOI set,
or whose normalised title is in the manual title set, appears in none of
the three outputs — not among the publication entries, not among the
working-paper entries, and not in the web JSON. -/
theorem C3_manual_precedence (works : List Work) (mk : ManualKeys) (w : Work)
    (_hw : w ∈ works)
    (hm : ((⟨doiClean w⟩ : String) ≠ "" ∧ (⟨doiClean w⟩ : String) ∈ mk.dois) ∨
      (⟨normalise_title (w.title.getD "").data⟩ : String) ∈ mk.titles) :
    (work_to_entry w).1 ∉ (reconcile works mk).1 ∧
    (work_to_entry w).1 ∉ (reconcile works mk).2.1 ∧
    (work_to_entry w).2 ∉ (reconcile works mk).2.2 := by
  have hskip : skippedByManual mk (work_to_entry w).2 = true := by
    unfold skippedByManual
    rw [web_doi_eq, web_title_eq]
    simp only [Bool.or_eq_true, Bool.and_eq_true]
    rcases hm with ⟨h1, h2⟩ | h2
    · left
      exact ⟨by simp [h1], List.elem_iff.mpr h2⟩
    · right
      exact List.elem_iff.mpr h2
  have entryCase : ∀ (l : List Pair),
      (∀ q ∈ l, ∃ w' ∈ works, q = work_to_entry w' ∧ skippedByManual mk q.2 = false) →
      (work_to_entry w).1 ∉ l.map Prod.fst := by
    intro l hl hmem
    obtain ⟨q, hq, hqe⟩ := List.mem_map.mp hmem
    obtain ⟨w', _, rfl, hskip'⟩ := hl q hq
    have hfalse : skipE mk (work_to_entry w').1 = false := by
      rw [skipE_eq]; exact hskip'
    have htrue : skipE mk (work_to_entry w).1 = true := by
      rw [skipE_eq]; exact hskip
    rw [hqe] at hfalse
    exact Bool.false_ne_true (hfalse.symm.trans htrue)
  refine ⟨?_, ?_, ?_⟩
  · rw [reconcile_fst]
    exact entryCase _ (fun q hq => mem_reconcilePairs (Or.inl hq))
  · rw [reconcile_snd_fst]
    exact entryCase _ (fun q hq => mem_reconcilePairs (Or.inr hq))
  · rw [reconcile_web]
    intro hmem
    obtain ⟨q, hq, hqe⟩ := List.mem_map.mp hmem
    obtain ⟨w', _, rfl, hskip'⟩ := mem_reconcilePairs (List.mem_append.mp hq)
    rw [hqe] at hskip'
    exact Bool.false_ne_true (hskip'.symm.trans hskip)

/-- Claim C3 witness at a concrete input: `manualWork`'s DOI `10.1/m` is in
`MKman`'s DOI set, so its entry and web dict are absent from all three
outputs of `reconcile [manualWork] MKman`. -/
theorem C3_witness :
    (manualWork ∈ [manualWork] ∧
      (⟨doiClean manualWork⟩ : String) ≠ "" ∧
      (⟨doiClean manualWork⟩ : String) ∈ MKman.dois) ∧
    (work_to_entry manualWork).1 ∉ (reconcile [manualWork] MKman).1 ∧
    (work_to_entry manualWork).1 ∉ (reconcile [manualWork] MKman).2.1 ∧
    (work_to_entry manualWork).2 ∉ (reconcile [manualWork] MKman).2.2 :=
  ⟨⟨by decide, by decide, by decide⟩,
   C3_manual_precedence [manualWork] MKman manualWork (by decide)
     (Or.inl ⟨by decide, by decide⟩)⟩

/-- Claim C4: within a category, when the surviving records of one
NormalizedKey are non-empty, exactly one is retained (the filter of the
merged output by that key is a singleton), namely the first record of the
group attaining the maximal parsed date — so any parseable date beats
`date.min` and ties keep the first-encountered record. -/
theorem C4_newest_wins (pairs : List Pair) (k : String)
    (h : groupFor k pairs ≠ []) :
    ∃ v l1 l2,
      (dedupe_keep_newest pairs).filter (fun p => normKeyOf p.2 == k) = [v] ∧
      groupFor k pairs = l1 ++ v :: l2 ∧
      (∀ q ∈ l1, dOf q < dOf v) ∧
      (∀ q ∈ groupFor k pairs, dOf q ≤ dOf v) := by
  obtain ⟨v, l1, l2, hsel, hsplit, hlt, hle⟩ := foldSel_none_spec h
  refine ⟨v, l1, l2, ?_, hsplit, hlt, hle⟩
  rw [dedupe_filter_eq pairs k, hsel]

/-- Claim C4 witness: two records share DOI `10.1/z` with dates 2020-01-01
and 2021-06-15; the merged output retains exactly the 2021-06-15 record. -/
theorem C4_witness :
    groupFor "doi:10.1/z" dupPairs ≠ [] ∧
    (∃ v l1 l2,
      (dedupe_keep_newest dupPairs).filter
        (fun p => normKeyOf p.2 == "doi:10.1/z") = [v] ∧
      groupFor "doi:10.1/z" dupPairs = l1 ++ v :: l2 ∧
      (∀ q ∈ l1, dOf q < dOf v) ∧
      (∀ q ∈ groupFor "doi:10.1/z" dupPairs, dOf q ≤ dOf v)) ∧
    (dedupe_keep_newest dupPairs).filter
      (fun p => normKeyOf p.2 == "doi:10.1/z") = [work_to_entry dupWorkNew] :=
  ⟨by decide, C4_newest_wins dupPairs "doi:10.1/z" (by decide), by decide⟩

/-- Claim C5: a work routes to the publications category iff its lowered
work type is `journal-article` or it has both a non-empty venue display
name and a non-empty normalised DOI; the three particular cases of the
claim are instantiated on concrete works. -/
theorem C5_classification :
    (∀ w : Work, isPubPair (work_to_entry w) = true ↔ isPublicationSpec w) ∧
    isPubPair (work_to_entry jaNoDoi) = true ∧
    isPubPair (work_to_entry preVenueDoi) = true ∧
    isPubPair (work_to_entry preBare) = false :=
  ⟨classification_iff, by decide, by decide, by decide⟩

/-- Claim C6: the web JSON is the publications part followed by the
working-papers part, and each category's merged output is sorted
descending by parsed publication date (a missing date parses to
`date.min`, the least value, so date-less records sort last); the
three-record instance of the claim evaluates to the stated order. -/
theorem C6_output_ordering :
    (∀ (works : List Work) (mk : ManualKeys),
      (reconcile works mk).2.2 =
        (reconcilePairs works mk).1.map Prod.snd ++
          (reconcilePairs works mk).2.map Prod.snd ∧
      List.Sorted sortRel (reconcilePairs works mk).1 ∧
      List.Sorted sortRel (reconcilePairs works mk).2) ∧
    ((reconcile [d2019, dAbsent, d2022] MK0).2.2.map WebItem.date) =
      ["2022-11-20", "2019-03-01", ""] := by
  constructor
  · intro works mk
    refine ⟨?_, dedupe_sorted _, dedupe_sorted _⟩
    rw [reconcile_web, List.map_append]
  · decide

/-- Claim C7: every emitted entry in either bibliographic output comes from
an input work and its identifier is exactly the spec's recipe (surname +
year + stripped-and-truncated DOI, or truncated-and-stripped normalised
title); the web dict of the same work carries the identical identifier, so
reprocessing the same record reproduces the same identifier. -/
theorem C7_identifier_scheme :
    (∀ (works : List Work) (mk : ManualKeys) (e : BibEntry),
      (e ∈ (reconcile works mk).1 ∨ e ∈ (reconcile works mk).2.1) →
      ∃ w ∈ works, e = (work_to_entry w).1 ∧ e.id = specIdOf w) ∧
    (∀ w : Work, (work_to_entry w).2.id = (work_to_entry w).1.id) := by
  constructor
  · intro works mk e hmem
    have hpair : ∃ q, (q ∈ (reconcilePairs works mk).1 ∨
        q ∈ (reconcilePairs works mk).2) ∧ q.1 = e := by
      rcases hmem with h | h
      · rw [reconcile_fst] at h
        obtain ⟨q, hq, hqe⟩ := List.mem_map.mp h
        exact ⟨q, Or.inl hq, hqe⟩
      · rw [reconcile_snd_fst] at h
        obtain ⟨q, hq, hqe⟩ := List.mem_map.mp h
        exact ⟨q, Or.inr hq, hqe⟩
    obtain ⟨q, hq, hqe⟩ := hpair
    obtain ⟨w, hw, rfl, _⟩ := mem_reconcilePairs hq
    refine ⟨w, hw, hqe.symm, ?_⟩
    rw [← hqe, entry_id_eq]
    exact keyOf_eq_specIdOf w
  · intro w
    rfl

/-- Claim C7 witness: the single-work run on `jaNoDoi` emits its entry and
the identifier follows the spec recipe. -/
theorem C7_witness :
    ((work_to_entry jaNoDoi).1 ∈ (reconcile [jaNoDoi] MK0).1 ∨
      (work_to_entry jaNoDoi).1 ∈ (reconcile [jaNoDoi] MK0).2.1) ∧
    (∃ w ∈ [jaNoDoi], (work_to_entry jaNoDoi).1 = (work_to_entry w).1 ∧
      (work_to_entry jaNoDoi).1.id = specIdOf w) :=
  ⟨Or.inl (by decide),
   C7_identifier_scheme.1 [jaNoDoi] MK0 _ (Or.inl (by decide))⟩

/-- Claim C8: the date parser is total — it always returns a date value at
least `date.min` (never raises), the empty string yields `date.min`, and
whenever the `try`-block body fails (`parseDateParts` is `none`, e.g. on
`"2020"` or garbage) the result degrades to `date.min`. -/
theorem C8_parse_date_total (d : List Char) :
    dateMin ≤ parse_date d ∧ (d = [] → parse_date d = dateMin) ∧
      (parseDateParts d = none → parse_date d = dateMin) := by
  refine ⟨?_, ?_, ?_⟩
  · unfold parse_date
    by_cases h : d = []
    · rw [if_pos h]
    · rw [if_neg h]
      cases hp : parseDateParts d with
      | none => simp
      | some v => simpa using parseDateParts_ge hp
  · intro h
    unfold parse_date
    rw [if_pos h]
  · intro h
    unfold parse_date
    by_cases hd : d = []
    · rw [if_pos hd]
    · rw [if_neg hd, h]
      rfl

/-- Claim C8 witness: the partial string `"2020"` fails the `try` block
and parses to `date.min`. -/
theorem C8_witness :
    dateMin ≤ parse_date "2020".data ∧ parse_date "2020".data = dateMin :=
  ⟨(C8_parse_date_total "2020".data).1,
   (C8_parse_date_total "2020".data).2.2 (by decide)⟩

/-- Claim C9: the reconciliation is a deterministic function of the
fetched works and the manual key set — any two runs on identical input
produce identical publication entries, working-paper entries and web JSON
items. -/
theorem C9_deterministic (works : List Work) (mk : ManualKeys)
    (out1 out2 : List BibEntry × List BibEntry × List WebItem)
    (h1 : out1 = reconcile works mk) (h2 : out2 = reconcile works mk) :
    out1 = out2 := h1.trans h2.symm

/-- Claim C9 witness: two runs on the one-work input coincide. -/
theorem C9_witness : reconcile [cxWorkA] MK0 = reconcile [cxWorkA] MK0 :=
  C9_deterministic [cxWorkA] MK0 _ _ rfl rfl

/-- Claim C10: the duplicate merge never fabricates or mutates a record —
every element of its output is one of the input pairs unchanged. -/
theorem C10_merge_frame (pairs : List Pair) (p : Pair)
    (h : p ∈ dedupe_keep_newest pairs) : p ∈ pairs := dedupe_subset h

/-- Claim C10 witness: the retained duplicate of `dupPairs` is literally
the second input pair. -/
theorem C10_witness :
    work_to_entry dupWorkNew ∈ dedupe_keep_newest dupPairs ∧
    work_to_entry dupWorkNew ∈ dupPairs :=
  ⟨by decide, C10_merge_frame dupPairs _ (by decide)⟩

end UpdatePubs
